import Mathlib

/-!
Verification of the Bookmark-Tool repository: a shallow embedding, in Lean 4,
of the URL-normalization, first-seen deduplication, report sorting, streaming
HTML-event parsing, and N-way set-intersection logic of the Python scripts,
together with theorems settling the specified behavioural claims.

Strings are modelled as `List Char` (Python `str` values); Python sets are
modelled as `Finset`; Python dicts (insertion-ordered in Python ≥ 3.7) are
modelled as association lists in insertion order.
-/

/-- Python strings are modelled as lists of characters. -/
abbrev Chars := List Char

/-! ## URL normalization (`normalize_url` in `deduplicate_bookmarks_健壮版1.py`)

```python
def normalize_url(url, strict_protocol, ignore_slash):
    if not strict_protocol:
        url = re.sub(r'^https?://', '', url)
    if ignore_slash:
        if '/' in url[url.find('://')+3:]:
            url = url.rstrip('/')
    return url
```
-/

/-- Python `str.find(pat)` : index of the first occurrence of `pat` in `s`
starting at position `i`, or `-1` when there is none. -/
def pyFindAux (pat : Chars) : Nat → Chars → Int
  | i, [] => if pat.isPrefixOf ([] : Chars) then (i : Int) else -1
  | i, c :: cs => if pat.isPrefixOf (c :: cs) then (i : Int) else pyFindAux pat (i + 1) cs

/-- Python `s.find(pat)`. -/
def pyFind (s pat : Chars) : Int :=
  pyFindAux pat 0 s

/-- Python `s.rstrip('/')`: remove every trailing `'/'`. -/
def rstripSlash (s : Chars) : Chars :=
  (s.reverse.dropWhile (· = '/')).reverse

/-- Model of `re.sub(r'^https?://', '', url)`: remove a leading literal `http://` or
`https://` (the regex has no IGNORECASE flag, so the match is case-sensitive). -/
def stripHttpPrefix (url : Chars) : Chars :=
  if ("https://".toList).isPrefixOf url then url.drop 8
  else if ("http://".toList).isPrefixOf url then url.drop 7
  else url

/-- The scheme separator literal `'://'`. -/
def schemeSep : Chars := "://".toList

/-- Model of `normalize_url(url, strict_protocol, ignore_slash)` from
`deduplicate_bookmarks_健壮版1.py`.  Python's slice `url[url.find('://')+3:]`
is `List.drop` at the (never negative, since `find ≥ -1`) index `find+3`. -/
def normalize_url (url : Chars) (strict_protocol ignore_slash : Bool) : Chars :=
  let url1 := if strict_protocol then url else stripHttpPrefix url
  if ignore_slash then
    if '/' ∈ url1.drop (pyFind url1 schemeSep + 3).toNat then rstripSlash url1
    else url1
  else url1

example : normalize_url "http://x.com//".toList true true = "http://x.com".toList := by decide
example : normalize_url "http://x.com".toList true true = "http://x.com".toList := by decide
example : normalize_url "HTTP://x.com".toList false false = "HTTP://x.com".toList := by decide
example : normalize_url "http://x.com".toList false false = "x.com".toList := by decide
example : normalize_url "a/".toList true true = "a/".toList := by decide
example : normalize_url "ab/".toList true true = "ab".toList := by decide
example : pyFind "http://x.com".toList schemeSep = 4 := by decide
example : pyFind "ab/".toList schemeSep = -1 := by decide

/-! ## First-seen deduplication (`deduplicate_and_generate_report`)

```python
for url, title in all_bookmarks:
    normalized_url_key = normalize_url(url, strict_protocol, ignore_slash)
    key = normalized_url_key if mode == 'url' else (normalized_url_key, title)
    if key not in processed_items:
        original_item = (url, title)
        unique_bookmarks.append(original_item)
        processed_items[key] = {'original': original_item, 'removed': []}
    else:
        processed_items[key]['removed'].append((url, title))
...
duplicate_groups = {k: v for k, v in processed_items.items() if v['removed']}
```

`processed_items` is an insertion-ordered dict, modelled as an association
list of `PGroup` records.  The dedup loop is generic in the key function; the
scripts instantiate it with `bookmark_key` below (`deduplicate_bookmarks.py`
is the special case `strict_protocol = true`, `ignore_slash = false`, where
`normalize_url` is the identity).
-/

/-- The dedup modes `'url'` and `'url-title'`. -/
inductive DedupMode : Type
  | url : DedupMode
  | urlTitle : DedupMode
deriving DecidableEq

/-- A Python dict key: a plain string in `url` mode, a `(url, title)` pair in
`url-title` mode. -/
inductive BKey : Type
  | u (url : Chars) : BKey
  | ut (url title : Chars) : BKey
deriving DecidableEq

/-- One entry of `processed_items`: the dict key, the `'original'` item and
the `'removed'` list. -/
structure PGroup (K E : Type) : Type where
  key : K
  original : E
  removed : List E
deriving DecidableEq

/-- Dict lookup on the association list (first entry with the given key). -/
def lookupGroup {K E : Type} [DecidableEq K] (k : K) : List (PGroup K E) → Option (PGroup K E)
  | [] => none
  | g :: gs => if g.key = k then some g else lookupGroup k gs

/-- Model of `processed_items[key]['removed'].append(e)`: append `e` to the removed
list of the (first) entry with key `k`. -/
def appendRemoved {K E : Type} [DecidableEq K] (k : K) (e : E) :
    List (PGroup K E) → List (PGroup K E)
  | [] => []
  | g :: gs =>
    if g.key = k then { g with removed := g.removed ++ [e] } :: gs
    else g :: appendRemoved k e gs

/-- One iteration of the dedup loop: state is `(unique_bookmarks, processed_items)`. -/
def dedupStep {K E : Type} [DecidableEq K] (keyFn : E → K)
    (st : List E × List (PGroup K E)) (e : E) : List E × List (PGroup K E) :=
  match lookupGroup (keyFn e) st.2 with
  | none => (st.1 ++ [e], st.2 ++ [⟨keyFn e, e, []⟩])
  | some _ => (st.1, appendRemoved (keyFn e) e st.2)

/-- The whole dedup loop over the parsed bookmark list. -/
def dedupRun {K E : Type} [DecidableEq K] (keyFn : E → K) (items : List E) :
    List E × List (PGroup K E) :=
  items.foldl (dedupStep keyFn) ([], [])

/-- The list `unique_bookmarks` after the loop. -/
def unique_bookmarks {K E : Type} [DecidableEq K] (keyFn : E → K) (items : List E) : List E :=
  (dedupRun keyFn items).1

/-- Model of `duplicate_groups = {k: v for k, v in processed_items.items() if v['removed']}`. -/
def duplicate_groups {K E : Type} [DecidableEq K] (keyFn : E → K) (items : List E) :
    List (PGroup K E) :=
  (dedupRun keyFn items).2.filter (fun g => !g.removed.isEmpty)

/-- The dict key computed by the scripts for one `(url, title)` bookmark. -/
def bookmark_key (mode : DedupMode) (strict_protocol ignore_slash : Bool)
    (e : Chars × Chars) : BKey :=
  match mode with
  | .url => .u (normalize_url e.1 strict_protocol ignore_slash)
  | .urlTitle => .ut (normalize_url e.1 strict_protocol ignore_slash) e.2

/-! ### Association-list lemmas for `processed_items` -/

theorem lookupGroup_append {K E : Type} [DecidableEq K] (k : K)
    (l₁ l₂ : List (PGroup K E)) :
    lookupGroup k (l₁ ++ l₂) =
      match lookupGroup k l₁ with
      | some g => some g
      | none => lookupGroup k l₂ := by
  induction l₁ with
  | nil => simp [lookupGroup]
  | cons g gs ih =>
    by_cases h : g.key = k
    · simp [lookupGroup, h]
    · simp [lookupGroup, h, ih]

theorem lookupGroup_appendRemoved_self {K E : Type} [DecidableEq K] (k : K) (e : E)
    (l : List (PGroup K E)) :
    lookupGroup k (appendRemoved k e l) =
      (lookupGroup k l).map (fun g => ⟨g.key, g.original, g.removed ++ [e]⟩) := by
  induction l with
  | nil => simp [lookupGroup, appendRemoved]
  | cons g gs ih =>
    by_cases h : g.key = k
    · simp [lookupGroup, appendRemoved, h]
    · simp [lookupGroup, appendRemoved, h, ih]

theorem lookupGroup_appendRemoved_ne {K E : Type} [DecidableEq K] {k k' : K}
    (hne : ¬ k' = k) (e : E) (l : List (PGroup K E)) :
    lookupGroup k (appendRemoved k' e l) = lookupGroup k l := by
  induction l with
  | nil => simp [lookupGroup, appendRemoved]
  | cons g gs ih =>
    by_cases h : g.key = k'
    · have hgk : ¬ g.key = k := by rw [h]; exact hne
      simp [lookupGroup, appendRemoved, h, hgk, hne]
    · simp only [appendRemoved, h, if_false, lookupGroup, ih]

/-! ### The dedup loop invariant

For every key `k`: the kept list restricted to `k` is the first occurrence of
`k` (the head of the parse-order filter), and `processed_items[k]` holds that
first occurrence as `'original'` and the remaining occurrences, in parse
order, as `'removed'`. -/

theorem dedupRun_invariant {K E : Type} [DecidableEq K] (keyFn : E → K)
    (items : List E) : ∀ k : K,
    (dedupRun keyFn items).1.filter (fun e => decide (keyFn e = k)) =
      (items.filter (fun e => decide (keyFn e = k))).take 1 ∧
    lookupGroup k (dedupRun keyFn items).2 =
      (match items.filter (fun e => decide (keyFn e = k)) with
       | [] => none
       | h :: t => some ⟨k, h, t⟩) := by
  induction items using List.reverseRecOn with
  | nil => intro k; constructor <;> simp [dedupRun, lookupGroup]
  | append_singleton items e ih =>
    intro k
    have hstep : dedupRun keyFn (items ++ [e]) = dedupStep keyFn (dedupRun keyFn items) e := by
      simp [dedupRun, List.foldl_append]
    obtain ⟨ihk1, ihk2⟩ := ih k
    obtain ⟨ihe1, ihe2⟩ := ih (keyFn e)
    rw [hstep]
    rcases hcase : lookupGroup (keyFn e) (dedupRun keyFn items).2 with _ | g
    · -- key of `e` not seen before: `items.filter (· = keyFn e)` is empty
      have hfe : items.filter (fun x => decide (keyFn x = keyFn e)) = [] := by
        rcases hf : items.filter (fun x => decide (keyFn x = keyFn e)) with _ | ⟨h, t⟩
        · rfl
        · rw [hf] at ihe2; rw [ihe2] at hcase; exact absurd hcase (by simp)
      simp only [dedupStep, hcase]
      refine ⟨?_, ?_⟩
      · by_cases hk : keyFn e = k
        · subst hk
          rw [List.filter_append, List.filter_append, ihe1, hfe]
          simp
        · rw [List.filter_append, List.filter_append]
          simp only [List.filter_cons, List.filter_nil, hk, decide_eq_true_eq,
            if_false, List.append_nil]
          simpa using ihk1
      · rw [lookupGroup_append]
        by_cases hk : keyFn e = k
        · subst hk
          rw [hcase, List.filter_append, hfe]
          simp [lookupGroup]
        · rw [ihk2, List.filter_append]
          have he : [e].filter (fun x => decide (keyFn x = k)) = [] := by simp [hk]
          rw [he, List.append_nil]
          rcases items.filter (fun x => decide (keyFn x = k)) with _ | ⟨h, t⟩
          · simp [lookupGroup, hk]
          · simp
    · -- key of `e` seen before: the filter at `keyFn e` is nonempty
      rcases hf : items.filter (fun x => decide (keyFn x = keyFn e)) with _ | ⟨h, t⟩
      · rw [hf] at ihe2; rw [ihe2] at hcase; exact absurd hcase (by simp)
      rw [hf] at ihe2
      have hg : g = ⟨keyFn e, h, t⟩ := by
        have hcase' := hcase
        rw [ihe2] at hcase'
        exact (Option.some.inj hcase').symm
      simp only [dedupStep, hcase]
      refine ⟨?_, ?_⟩
      · by_cases hk : keyFn e = k
        · subst hk
          rw [ihe1, hf, List.filter_append, hf]
          simp
        · rw [List.filter_append]
          have he : [e].filter (fun x => decide (keyFn x = k)) = [] := by simp [hk]
          rw [he, List.append_nil]
          exact ihk1
      · by_cases hk : keyFn e = k
        · subst hk
          rw [lookupGroup_appendRemoved_self, hcase, hg, List.filter_append, hf]
          simp
        · rw [lookupGroup_appendRemoved_ne hk, ihk2, List.filter_append]
          have he : [e].filter (fun x => decide (keyFn x = k)) = [] := by simp [hk]
          rw [he, List.append_nil]

theorem lookupGroup_mem {K E : Type} [DecidableEq K] {k : K} {g : PGroup K E}
    {l : List (PGroup K E)} (h : lookupGroup k l = some g) : g ∈ l := by
  induction l with
  | nil => simp [lookupGroup] at h
  | cons g0 gs ih =>
    by_cases h0 : g0.key = k
    · simp only [lookupGroup, h0, if_true, Option.some.injEq] at h
      rw [← h]; exact List.mem_cons_self _ _
    · simp only [lookupGroup, h0, if_false] at h
      exact List.mem_cons_of_mem _ (ih h)

/-- C1: First-seen deduplication: for every parsed occurrence sequence, every
dedup mode and normalization flags, and every key that occurs, the occurrences
of that key in parse order are `first :: later`; the kept list
(`unique_bookmarks`) contains exactly `first` among them, `processed_items`
stores `first` as the group's original and `later` (in parse order) as its
removed list, and when `later` is nonempty that group is one of the reported
`duplicate_groups`. -/
theorem dedup_first_seen (mode : DedupMode) (strict_protocol ignore_slash : Bool)
    (items : List (Chars × Chars)) (k : BKey)
    (hk : k ∈ items.map (bookmark_key mode strict_protocol ignore_slash)) :
    ∃ first later,
      items.filter (fun e => decide (bookmark_key mode strict_protocol ignore_slash e = k)) =
        first :: later ∧
      (unique_bookmarks (bookmark_key mode strict_protocol ignore_slash) items).filter
        (fun e => decide (bookmark_key mode strict_protocol ignore_slash e = k)) = [first] ∧
      lookupGroup k (dedupRun (bookmark_key mode strict_protocol ignore_slash) items).2 =
        some ⟨k, first, later⟩ ∧
      (¬ later = [] → (⟨k, first, later⟩ : PGroup BKey (Chars × Chars)) ∈
        duplicate_groups (bookmark_key mode strict_protocol ignore_slash) items) := by
  obtain ⟨e, he, hke⟩ := List.mem_map.mp hk
  have hmem : e ∈ items.filter
      (fun x => decide (bookmark_key mode strict_protocol ignore_slash x = k)) :=
    List.mem_filter.mpr ⟨he, by simp [hke]⟩
  rcases hf : items.filter
      (fun x => decide (bookmark_key mode strict_protocol ignore_slash x = k)) with _ | ⟨first, later⟩
  · rw [hf] at hmem; exact absurd hmem (by simp)
  obtain ⟨inv1, inv2⟩ :=
    dedupRun_invariant (bookmark_key mode strict_protocol ignore_slash) items k
  rw [hf] at inv1 inv2
  refine ⟨first, later, hf ▸ rfl, by simpa using inv1, inv2, fun hlater => ?_⟩
  refine List.mem_filter.mpr ⟨lookupGroup_mem inv2, ?_⟩
  cases later with
  | nil => exact absurd rfl hlater
  | cons x xs => simp [List.isEmpty]

/-- Witness for `dedup_first_seen`: three bookmarks where the first and third
share the URL `a`; the kept occurrence is the first one and the third is its
removed duplicate. -/
theorem dedup_first_seen_witness :
    ∃ first later,
      ([("a".toList, "t1".toList), ("b".toList, "t2".toList), ("a".toList, "t3".toList)].filter
        (fun e => decide (bookmark_key .url true false e = .u "a".toList))) = first :: later ∧
      (unique_bookmarks (bookmark_key .url true false)
        [("a".toList, "t1".toList), ("b".toList, "t2".toList), ("a".toList, "t3".toList)]).filter
        (fun e => decide (bookmark_key .url true false e = .u "a".toList)) = [first] ∧
      lookupGroup (BKey.u "a".toList) (dedupRun (bookmark_key .url true false)
        [("a".toList, "t1".toList), ("b".toList, "t2".toList), ("a".toList, "t3".toList)]).2 =
        some ⟨.u "a".toList, first, later⟩ ∧
      (¬ later = [] → (⟨.u "a".toList, first, later⟩ : PGroup BKey (Chars × Chars)) ∈
        duplicate_groups (bookmark_key .url true false)
          [("a".toList, "t1".toList), ("b".toList, "t2".toList), ("a".toList, "t3".toList)]) :=
  dedup_first_seen .url true false
    [("a".toList, "t1".toList), ("b".toList, "t2".toList), ("a".toList, "t3".toList)]
    (.u "a".toList) (by decide)

/-! ### Conservation: every processed bookmark is kept or removed exactly once -/

theorem sum_removed_filter {K E : Type} (l : List (PGroup K E)) :
    ((l.filter (fun g => !g.removed.isEmpty)).map (fun g => g.removed.length)).sum =
      (l.map (fun g => g.removed.length)).sum := by
  induction l with
  | nil => rfl
  | cons g gs ih =>
    cases hr : g.removed with
    | nil => simp [List.filter_cons, hr, ih]
    | cons x xs => simp [List.filter_cons, hr, ih]

theorem sum_removed_appendRemoved {K E : Type} [DecidableEq K] {k : K} (e : E)
    {l : List (PGroup K E)} {g0 : PGroup K E} (h : lookupGroup k l = some g0) :
    ((appendRemoved k e l).map (fun g => g.removed.length)).sum =
      (l.map (fun g => g.removed.length)).sum + 1 := by
  induction l with
  | nil => simp [lookupGroup] at h
  | cons g gs ih =>
    by_cases h0 : g.key = k
    · simp only [appendRemoved, h0, if_true, List.map_cons, List.sum_cons,
        List.length_append, List.length_cons, List.length_nil]
      omega
    · simp only [lookupGroup, h0, if_false] at h
      simp only [appendRemoved, h0, if_false, List.map_cons, List.sum_cons, ih h]
      omega

theorem dedupRun_sizes {K E : Type} [DecidableEq K] (keyFn : E → K) (items : List E) :
    (dedupRun keyFn items).1.length +
      ((dedupRun keyFn items).2.map (fun g => g.removed.length)).sum = items.length := by
  induction items using List.reverseRecOn with
  | nil => rfl
  | append_singleton items e ih =>
    have hstep : dedupRun keyFn (items ++ [e]) = dedupStep keyFn (dedupRun keyFn items) e := by
      simp [dedupRun, List.foldl_append]
    rw [hstep]
    rcases hcase : lookupGroup (keyFn e) (dedupRun keyFn items).2 with _ | g
    · simp only [dedupStep, hcase, List.length_append, List.length_cons, List.length_nil,
        List.map_append, List.sum_append, List.map_cons, List.sum_cons, List.map_nil,
        List.sum_nil]
      omega
    · simp only [dedupStep, hcase, List.length_append, List.length_cons, List.length_nil,
        sum_removed_appendRemoved e hcase]
      omega

/-- C5: Dedup conservation.  For every parsed bookmark list, every mode and
normalization flags: the number of kept entries (`unique_bookmarks`) plus the
total length of the removed lists over the reported `duplicate_groups` equals
the number of bookmarks that entered the dedup pass (in the dedup scripts no
protocol filtering exists, so this is the full parsed count). -/
theorem dedup_conservation (mode : DedupMode) (strict_protocol ignore_slash : Bool)
    (items : List (Chars × Chars)) :
    (unique_bookmarks (bookmark_key mode strict_protocol ignore_slash) items).length +
      ((duplicate_groups (bookmark_key mode strict_protocol ignore_slash) items).map
        (fun g => g.removed.length)).sum = items.length := by
  rw [unique_bookmarks, duplicate_groups, sum_removed_filter]
  exact dedupRun_sizes _ items

/-! ## Protocol-scheme collapsing (claim about `re.sub(r'^https?://', '', url)`)

The regex is compiled without `re.IGNORECASE`, so only the lowercase literal
prefixes are stripped. -/

/-- C3 counterexample: with protocol collapsing enabled
(`strict_protocol = False`), the raw URLs `HTTP://x.com` and `http://x.com`
differ only in the case of the scheme prefix, yet normalization maps them to
different strings and hence different CanonicalKeys: the regex
`^https?://` is case-sensitive. -/
theorem protocol_collapse_case_cex :
    ¬ normalize_url "HTTP://x.com".toList false false =
        normalize_url "http://x.com".toList false false ∧
    ¬ bookmark_key .url false false ("HTTP://x.com".toList, "T".toList) =
        bookmark_key .url false false ("http://x.com".toList, "T".toList) ∧
    normalize_url "HTTP://x.com".toList false false = "HTTP://x.com".toList ∧
    normalize_url "http://x.com".toList false false = "x.com".toList := by
  refine ⟨by decide, by decide, by decide, by decide⟩

/-- C3 amended: with protocol collapsing enabled, normalization strips a
leading `http://` or `https://` only when it is in lowercase exactly as
written (the regex has no IGNORECASE flag); an uppercase scheme prefix is
left in place, so URLs differing in scheme-prefix case do not collapse. -/
theorem protocol_collapse_lowercase_only (rest : Chars) :
    normalize_url ("http://".toList ++ rest) false false = rest ∧
    normalize_url ("https://".toList ++ rest) false false = rest ∧
    normalize_url ("HTTP://".toList ++ rest) false false = "HTTP://".toList ++ rest ∧
    normalize_url ("HTTPS://".toList ++ rest) false false = "HTTPS://".toList ++ rest := by
  have h1 : ("https://".toList).isPrefixOf ("http://".toList ++ rest) = false := rfl
  have h2 : ("http://".toList).isPrefixOf ("http://".toList ++ rest) = true := by
    simp [List.isPrefixOf]
  have h3 : ("https://".toList).isPrefixOf ("https://".toList ++ rest) = true := by
    simp [List.isPrefixOf]
  refine ⟨?_, ?_, rfl, rfl⟩
  · simp only [normalize_url, stripHttpPrefix, h1, h2, Bool.false_eq_true, if_false, if_true]
    rfl
  · simp only [normalize_url, stripHttpPrefix, h3, if_true]
    rfl

/-! ## Trailing-slash collapsing (claim about `url.rstrip('/')`) -/

/-- The number of trailing `'/'` characters of a string. -/
def trailingSlashCount (s : Chars) : Nat :=
  (s.reverse.takeWhile (· = '/')).length

theorem rstripSlash_append_replicate (s : Chars) :
    rstripSlash s ++ List.replicate (trailingSlashCount s) '/' = s := by
  have htd : s.reverse.takeWhile (· = '/') ++ s.reverse.dropWhile (· = '/') = s.reverse :=
    List.takeWhile_append_dropWhile _ _
  have hrep : s.reverse.takeWhile (· = '/') =
      List.replicate (trailingSlashCount s) '/' := by
    rw [List.eq_replicate_iff]
    refine ⟨rfl, fun b hb => ?_⟩
    have := List.mem_takeWhile_imp hb
    simpa using this
  calc rstripSlash s ++ List.replicate (trailingSlashCount s) '/'
      = (s.reverse.dropWhile (· = '/')).reverse ++ (s.reverse.takeWhile (· = '/')).reverse := by
        rw [rstripSlash, hrep, List.reverse_replicate]
    _ = (s.reverse.takeWhile (· = '/') ++ s.reverse.dropWhile (· = '/')).reverse := by
        rw [List.reverse_append]
    _ = s := by rw [htd, List.reverse_reverse]

theorem head_dropWhile_slash (l : Chars) :
    ¬ (l.dropWhile (· = '/')).head? = some '/' := by
  induction l with
  | nil => simp
  | cons c cs ih =>
    by_cases h : c = '/'
    · simpa [List.dropWhile_cons, h] using ih
    · simp [List.dropWhile_cons, h]

theorem rstripSlash_getLast (s : Chars) :
    ¬ (rstripSlash s).getLast? = some '/' := by
  rw [rstripSlash, List.getLast?_reverse]
  exact head_dropWhile_slash s.reverse

theorem trailingSlashCount_pos (s : Chars) (h : s.getLast? = some '/') :
    1 ≤ trailingSlashCount s := by
  rw [← List.head?_reverse] at h
  rcases hr : s.reverse with _ | ⟨c, cs⟩
  · rw [hr] at h; simp at h
  · rw [hr] at h
    simp only [List.head?_cons, Option.some.injEq] at h
    rw [trailingSlashCount, hr, List.takeWhile_cons]
    simp [h]

/-- C2 counterexample: with `collapse_trailing_slash` enabled, the URL
`http://x.com//` (two trailing slashes, a `/` present after `://`) loses BOTH
trailing slashes — `rstrip('/')` strips all of them — whereas the claim
predicts the result `http://x.com/` with exactly one removed. -/
theorem trailing_slash_cex :
    normalize_url "http://x.com//".toList true true = "http://x.com".toList ∧
    ¬ normalize_url "http://x.com//".toList true true = "http://x.com/".toList := by
  refine ⟨by decide, by decide⟩

/-- C2 amended: when `collapse_trailing_slash` is enabled, normalization
strips ALL trailing `'/'` characters (not exactly one), and it does so only
when a `'/'` exists in the portion of the URL starting at `find('://') + 3`
(a bare domain with no path is left unchanged).  For every URL ending in one
or more slashes (with the slash condition met), every trailing slash is
removed: the result no longer ends in `'/'` and the input is the result
followed by `trailingSlashCount` slashes. -/
theorem collapse_trailing_slash_all (url : Chars) :
    (¬ '/' ∈ url.drop (pyFind url schemeSep + 3).toNat → normalize_url url true true = url) ∧
    ('/' ∈ url.drop (pyFind url schemeSep + 3).toNat →
      normalize_url url true true = rstripSlash url ∧
      url = normalize_url url true true ++ List.replicate (trailingSlashCount url) '/' ∧
      ¬ (normalize_url url true true).getLast? = some '/' ∧
      (url.getLast? = some '/' → 1 ≤ trailingSlashCount url)) := by
  constructor
  · intro h
    simp [normalize_url, h]
  · intro h
    have hn : normalize_url url true true = rstripSlash url := by
      simp [normalize_url, h]
    refine ⟨hn, ?_, ?_, trailingSlashCount_pos url⟩
    · rw [hn, rstripSlash_append_replicate]
    · rw [hn]; exact rstripSlash_getLast url

/-- Witness for `collapse_trailing_slash_all` at the URL `http://x.com//`:
the slash condition holds, both trailing slashes are removed, and the result
does not end in `'/'`. -/
theorem collapse_trailing_slash_all_witness :
    normalize_url "http://x.com//".toList true true = rstripSlash "http://x.com//".toList ∧
    "http://x.com//".toList = normalize_url "http://x.com//".toList true true ++
      List.replicate (trailingSlashCount "http://x.com//".toList) '/' ∧
    ¬ (normalize_url "http://x.com//".toList true true).getLast? = some '/' := by
  obtain ⟨h1, h2, h3, _⟩ := (collapse_trailing_slash_all "http://x.com//".toList).2 (by decide)
  exact ⟨h1, h2, h3⟩

/-! ## `normalize_url` when the URL has no `'://'` (claim C10) -/

theorem pyFind_http (rest : Chars) :
    pyFind ("http://".toList ++ rest) schemeSep = 4 := by
  simp [pyFind, pyFindAux, schemeSep, List.isPrefixOf]

theorem pyFind_https (rest : Chars) :
    pyFind ("https://".toList ++ rest) schemeSep = 5 := by
  simp [pyFind, pyFindAux, schemeSep, List.isPrefixOf]

theorem stripHttpPrefix_eq_of_find_neg (url : Chars) (h : pyFind url schemeSep = -1) :
    stripHttpPrefix url = url := by
  by_cases h1 : ("https://".toList).isPrefixOf url
  · exfalso
    obtain ⟨t, ht⟩ := List.isPrefixOf_iff_prefix.mp h1
    rw [← ht, pyFind_https] at h
    exact absurd h (by decide)
  by_cases h2 : ("http://".toList).isPrefixOf url
  · exfalso
    obtain ⟨t, ht⟩ := List.isPrefixOf_iff_prefix.mp h2
    rw [← ht, pyFind_http] at h
    exact absurd h (by decide)
  unfold stripHttpPrefix
  rw [if_neg h1, if_neg h2]

/-- C10: when the URL contains no `'://'` substring (`find` returns `-1`, so
the slice starts at `-1 + 3 = 2`), trailing-slash stripping happens exactly
when a `'/'` occurs at index 2 or later; in particular `a/` is returned
unchanged while `ab/` loses its trailing slash.  This holds for both values
of `strict_protocol` (a URL without `'://'` cannot start with `http://` or
`https://`, so the protocol-collapsing step leaves it unchanged). -/
theorem normalize_url_no_scheme (url : Chars) (strict_protocol : Bool)
    (h : pyFind url schemeSep = -1) :
    (normalize_url url strict_protocol true =
      if '/' ∈ url.drop 2 then rstripSlash url else url) ∧
    normalize_url "a/".toList strict_protocol true = "a/".toList ∧
    normalize_url "ab/".toList strict_protocol true = "ab".toList := by
  have hstrip : stripHttpPrefix url = url := stripHttpPrefix_eq_of_find_neg url h
  refine ⟨?_, ?_, ?_⟩
  · cases strict_protocol
    · simp only [normalize_url, Bool.false_eq_true, if_false, if_true, hstrip, h]
      rw [show ((-1 : Int) + 3).toNat = 2 from by decide]
    · simp only [normalize_url, if_true, h]
      rw [show ((-1 : Int) + 3).toNat = 2 from by decide]
  · cases strict_protocol <;> decide
  · cases strict_protocol <;> decide

/-- Witness for `normalize_url_no_scheme` at the URL `ab/`: it has no
`'://'`, a `'/'` occurs at index 2, and the trailing slash is removed. -/
theorem normalize_url_no_scheme_witness :
    pyFind "ab/".toList schemeSep = -1 ∧
    normalize_url "ab/".toList true true =
      (if '/' ∈ ("ab/".toList).drop 2 then rstripSlash "ab/".toList else "ab/".toList) :=
  ⟨by decide, (normalize_url_no_scheme "ab/".toList true (by decide)).1⟩

/-! ## Report ordering (`generate_report_file`)

```python
sorted_groups = sorted(duplicate_groups.items(),
                       key=lambda item: len(item[1]['removed']), reverse=True)
```

Python's `sorted` is stable: groups are ordered by removed-count descending,
and groups with equal counts keep their relative order in `duplicate_groups`
(dict insertion order = first-occurrence order of the keys).  A stable sort
by a fixed key is unique, so it is modelled by a stable insertion sort. -/

/-- Insert `a` before the first element whose key is ≤ its own (descending,
stable: an equal-key element already present stays behind the later-inserted
ones only if it was earlier in the input — see `sortDesc`). -/
def insertDesc {α : Type} (f : α → Nat) (a : α) : List α → List α
  | [] => [a]
  | b :: bs => if f b ≤ f a then a :: b :: bs else b :: insertDesc f a bs

/-- Stable insertion sort, descending by `f`. -/
def sortDesc {α : Type} (f : α → Nat) : List α → List α
  | [] => []
  | a :: as => insertDesc f a (sortDesc f as)

/-- The group list as ordered in the report. -/
def sorted_groups {K E : Type} [DecidableEq K] (keyFn : E → K) (items : List E) :
    List (PGroup K E) :=
  sortDesc (fun g => g.removed.length) (duplicate_groups keyFn items)

theorem mem_insertDesc {α : Type} (f : α → Nat) (a x : α) (l : List α) :
    x ∈ insertDesc f a l ↔ x = a ∨ x ∈ l := by
  induction l with
  | nil => simp [insertDesc]
  | cons b bs ih =>
    by_cases h : f b ≤ f a
    · simp [insertDesc, h]
    · simp only [insertDesc, h, if_false, List.mem_cons, ih]
      tauto

theorem pairwise_insertDesc {α : Type} (f : α → Nat) (a : α) (l : List α)
    (hl : List.Pairwise (fun x y => f y ≤ f x) l) :
    List.Pairwise (fun x y => f y ≤ f x) (insertDesc f a l) := by
  induction l with
  | nil => simp [insertDesc]
  | cons b bs ih =>
    rw [List.pairwise_cons] at hl
    obtain ⟨hb, hbs⟩ := hl
    by_cases h : f b ≤ f a
    · simp only [insertDesc, h, if_true]
      rw [List.pairwise_cons]
      refine ⟨?_, List.pairwise_cons.mpr ⟨hb, hbs⟩⟩
      intro x hx
      rcases List.mem_cons.mp hx with hx | hx
      · rw [hx]; exact h
      · exact le_trans (hb x hx) h
    · simp only [insertDesc, h, if_false]
      rw [List.pairwise_cons]
      refine ⟨?_, ih hbs⟩
      intro x hx
      rcases (mem_insertDesc f a x bs).mp hx with hx | hx
      · rw [hx]; omega
      · exact hb x hx

theorem pairwise_sortDesc {α : Type} (f : α → Nat) (l : List α) :
    List.Pairwise (fun x y => f y ≤ f x) (sortDesc f l) := by
  induction l with
  | nil => simp [sortDesc]
  | cons a as ih => exact pairwise_insertDesc f a _ ih

theorem filter_insertDesc {α : Type} (f : α → Nat) (a : α) (l : List α) (n : Nat) :
    (insertDesc f a l).filter (fun x => decide (f x = n)) =
      if f a = n then a :: l.filter (fun x => decide (f x = n))
      else l.filter (fun x => decide (f x = n)) := by
  induction l with
  | nil => by_cases h : f a = n <;> simp [insertDesc, h]
  | cons b bs ih =>
    by_cases h : f b ≤ f a
    · simp only [insertDesc]
      rw [if_pos h]
      by_cases ha : f a = n <;> simp [List.filter_cons, ha]
    · simp only [insertDesc]
      rw [if_neg h]
      by_cases hb : f b = n
      · have ha : ¬ f a = n := by omega
        simp [List.filter_cons, hb, ih, ha]
      · simp [List.filter_cons, hb, ih]

theorem filter_sortDesc {α : Type} (f : α → Nat) (l : List α) (n : Nat) :
    (sortDesc f l).filter (fun x => decide (f x = n)) =
      l.filter (fun x => decide (f x = n)) := by
  induction l with
  | nil => rfl
  | cons a as ih =>
    by_cases h : f a = n <;>
      simp [sortDesc, filter_insertDesc, ih, h, List.filter_cons]

/-- C4 counterexample: with two duplicate groups of equal removed-count (1
each), keys `b` (first occurrence earlier) and `a`, the report lists the
`b` group FIRST even though `a` is the smaller CanonicalKey: ties are broken
by first-occurrence order, not by key order. -/
theorem report_sort_tiebreak_cex :
    sorted_groups (bookmark_key .url true false)
      [("b".toList, "t1".toList), ("a".toList, "t2".toList),
       ("b".toList, "t3".toList), ("a".toList, "t4".toList)] =
      [⟨.u "b".toList, ("b".toList, "t1".toList), [("b".toList, "t3".toList)]⟩,
       ⟨.u "a".toList, ("a".toList, "t2".toList), [("a".toList, "t4".toList)]⟩] ∧
    "a".toList < "b".toList := by
  refine ⟨by decide, by decide⟩

/-- C4 amended: the report lists duplicate groups sorted by removed-count
descending, and groups with equal removed-count appear in their
`duplicate_groups` order (first-occurrence order of their keys — Python's
`sorted` is stable), not in CanonicalKey order. -/
theorem report_sort_desc_stable (mode : DedupMode) (strict_protocol ignore_slash : Bool)
    (items : List (Chars × Chars)) :
    List.Pairwise (fun g1 g2 => g2.removed.length ≤ g1.removed.length)
      (sorted_groups (bookmark_key mode strict_protocol ignore_slash) items) ∧
    ∀ n : Nat,
      (sorted_groups (bookmark_key mode strict_protocol ignore_slash) items).filter
        (fun g => decide (g.removed.length = n)) =
      (duplicate_groups (bookmark_key mode strict_protocol ignore_slash) items).filter
        (fun g => decide (g.removed.length = n)) := by
  exact ⟨pairwise_sortDesc _ _, fun n => filter_sortDesc _ _ n⟩

/-! ## N-way intersection (`analyze_multiple_files`, `generate_multi_report`)

```python
common_bookmarks = all_data[file_list[0]]['b_set'].copy()
for i in range(1, len(file_list)):
    common_bookmarks.intersection_update(all_data[file_list[i]]['b_set'])
```

(and identically for folder sets; `compare_multi_bookmarks.py` uses
`set.intersection(*sets)`, the same left fold).  The scripts require at least
two successfully parsed files; the `[]` case below is unreachable there. -/

/-- Iterated intersection starting from the first collection's set. -/
def interAll {K : Type} [DecidableEq K] : List (Finset K) → Finset K
  | [] => ∅
  | s :: rest => rest.foldl (· ∩ ·) s

theorem mem_foldl_inter {K : Type} [DecidableEq K] (rest : List (Finset K)) :
    ∀ (s : Finset K) (x : K),
      x ∈ rest.foldl (· ∩ ·) s ↔ x ∈ s ∧ ∀ t ∈ rest, x ∈ t := by
  induction rest with
  | nil => intro s x; simp
  | cons t ts ih =>
    intro s x
    rw [List.foldl_cons, ih (s ∩ t) x, Finset.mem_inter]
    constructor
    · rintro ⟨⟨hs, ht⟩, hts⟩
      exact ⟨hs, fun u hu => by rcases List.mem_cons.mp hu with h | h
                                · rw [h]; exact ht
                                · exact hts u h⟩
    · rintro ⟨hs, hall⟩
      exact ⟨⟨hs, hall t (List.mem_cons_self t ts)⟩,
        fun u hu => hall u (List.mem_cons_of_mem t hu)⟩

theorem mem_interAll {K : Type} [DecidableEq K] (l : List (Finset K)) (hne : ¬ l = [])
    (x : K) : x ∈ interAll l ↔ ∀ s ∈ l, x ∈ s := by
  cases l with
  | nil => exact absurd rfl hne
  | cons s rest =>
    rw [interAll, mem_foldl_inter]
    constructor
    · rintro ⟨hs, hrest⟩ u hu
      rcases List.mem_cons.mp hu with h | h
      · rw [h]; exact hs
      · exact hrest u h
    · intro hall
      exact ⟨hall s (List.mem_cons_self s rest),
        fun u hu => hall u (List.mem_cons_of_mem s hu)⟩

/-- C7: with at least two collections, the iterated intersection is invariant
under every permutation of the input collections, and the three-way
intersection equals the nested form `intersect([A, intersect([B, C])])`.
The statement is generic in the element type, so it covers both the
bookmark-key sets and the folder-name sets. -/
theorem intersection_order_independent {K : Type} [DecidableEq K]
    (l l' : List (Finset K)) (hp : l.Perm l') (hlen : 2 ≤ l.length) :
    interAll l = interAll l' ∧
    ∀ A B C : Finset K, interAll [A, B, C] = interAll [A, interAll [B, C]] := by
  constructor
  · have hne : ¬ l = [] := by
      intro h; rw [h] at hlen; simp at hlen
    have hne' : ¬ l' = [] := by
      intro h
      rw [h] at hp
      rw [List.perm_nil.mp hp] at hlen
      simp at hlen
    apply Finset.ext
    intro x
    rw [mem_interAll l hne x, mem_interAll l' hne' x]
    constructor
    · intro h s hs; exact h s (hp.mem_iff.mpr hs)
    · intro h s hs; exact h s (hp.mem_iff.mp hs)
  · intro A B C
    apply Finset.ext
    intro x
    simp [interAll, Finset.mem_inter]

/-- Witness for `intersection_order_independent`: the two-element lists
`[{1,2}, {2,3}]` and `[{2,3}, {1,2}]` over `ℕ` are permutations of each
other and intersect to the same set. -/
theorem intersection_order_independent_witness :
    interAll [({1, 2} : Finset ℕ), {2, 3}] = interAll [({2, 3} : Finset ℕ), {1, 2}] :=
  (intersection_order_independent [({1, 2} : Finset ℕ), {2, 3}]
    [({2, 3} : Finset ℕ), {1, 2}] (List.Perm.swap _ _ _) (by decide)).1

/-! ## Streaming HTML parsing (`BookmarkParser` in `compare_bookmarks_流式解析.py`
and `compare_multi_bookmarks_流式解析.py`)

`html.parser.HTMLParser` (a stdlib collaborator, outside this repository)
tokenizes the file into start-tag / data / end-tag events with lowercased tag
names; the repository's `BookmarkParser` classes are its event handlers,
modelled here as a fold over an event list.  `urllib.parse.unquote` (stdlib)
is passed in as an abstract function `unquote`.  The two classes are
identical except for the `</h3>` branch of `handle_endtag`. -/

/-- One tokenizer event. -/
inductive ParseEvent : Type
  | startTag (tag : Chars) (attrs : List (Chars × Chars)) : ParseEvent
  | text (data : Chars) : ParseEvent
  | endTag (tag : Chars) : ParseEvent
deriving DecidableEq

/-- Model of `dict(attrs).get(name, '')`: building a dict lets a later duplicate
attribute override an earlier one, so this is the LAST binding of `name`. -/
def dictGet (attrs : List (Chars × Chars)) (name : Chars) : Chars :=
  match attrs.reverse.find? (fun p => decide (p.1 = name)) with
  | some p => p.2
  | none => []

/-- Python `str.strip()` (whitespace at both ends). -/
def pyStrip (s : Chars) : Chars :=
  ((s.dropWhile Char.isWhitespace).reverse.dropWhile Char.isWhitespace).reverse

/-- Python `str.lower()`. -/
def pyLower (s : Chars) : Chars :=
  s.map Char.toLower

/-- Model of `url.startswith(('http', 'https', 'ftp'))`. -/
def allowed_protocol (u : Chars) : Bool :=
  ("http".toList).isPrefixOf u || ("https".toList).isPrefixOf u ||
    ("ftp".toList).isPrefixOf u

/-- An element of `self.bookmarks`: a bare URL (mode `url`) or a
`(url, title)` pair (mode `url-title`). -/
inductive Bk : Type
  | u (url : Chars) : Bk
  | ut (url title : Chars) : Bk
deriving DecidableEq

/-- The URL component of a stored bookmark. -/
def Bk.bkUrl : Bk → Chars
  | .u url => url
  | .ut url _ => url

/-- The mutable fields of `BookmarkParser`. -/
structure ParserState : Type where
  bookmarks : List Bk
  folders : Finset Chars
  total_folder_counter : Nat
  is_in_a_tag : Bool
  is_in_h3_tag : Bool
  current_url : Chars
  current_title : Chars
  current_folder : Chars

/-- The initial state set up by `BookmarkParser.__init__`. -/
def initState : ParserState :=
  ⟨[], ∅, 0, false, false, [], [], []⟩

/-- Model of `handle_starttag`. -/
def handle_starttag (tag : Chars) (attrs : List (Chars × Chars))
    (st : ParserState) : ParserState :=
  if tag = "a".toList then
    { st with is_in_a_tag := true, current_url := dictGet attrs "href".toList }
  else if tag = "h3".toList then
    { st with is_in_h3_tag := true }
  else st

/-- Model of `handle_data`. -/
def handle_data (data : Chars) (st : ParserState) : ParserState :=
  if st.is_in_a_tag then { st with current_title := st.current_title ++ data }
  else if st.is_in_h3_tag then { st with current_folder := st.current_folder ++ data }
  else st

/-- The `tag == 'a'` branch of `handle_endtag`, identical in both classes:
decode if enabled, filter if enabled, append to `bookmarks` as the mode
dictates, then reset the anchor state unconditionally. -/
def anchorClose (mode : DedupMode) (filter_enabled decode_enabled : Bool)
    (unquote : Chars → Chars) (st : ParserState) : ParserState :=
  let st1 :=
    if ¬ st.current_url = [] then
      let normalized_url := if decode_enabled then unquote st.current_url else st.current_url
      let should_add :=
        if filter_enabled then allowed_protocol (pyLower normalized_url) else true
      if should_add then
        match mode with
        | .url => { st with bookmarks := st.bookmarks ++ [.u normalized_url] }
        | .urlTitle =>
          { st with bookmarks := st.bookmarks ++ [.ut normalized_url (pyStrip st.current_title)] }
      else st
    else st
  { st1 with is_in_a_tag := false, current_url := [], current_title := [] }

/-- Model of `handle_endtag` of the TWO-FILE parser (`compare_bookmarks_流式解析.py`):
the `</h3>` branch inserts the stripped folder text unconditionally. -/
def handle_endtag (mode : DedupMode) (filter_enabled decode_enabled : Bool)
    (unquote : Chars → Chars) (tag : Chars) (st : ParserState) : ParserState :=
  if tag = "a".toList then
    anchorClose mode filter_enabled decode_enabled unquote st
  else if tag = "h3".toList then
    { st with total_folder_counter := st.total_folder_counter + 1,
              folders := insert (pyStrip st.current_folder) st.folders,
              is_in_h3_tag := false, current_folder := [] }
  else st

/-- Model of `handle_endtag` of the MULTI-FILE parser
(`compare_multi_bookmarks_流式解析.py`): the `</h3>` branch still increments
the counter but inserts the stripped folder text only when it is non-empty. -/
def handle_endtag_multi (mode : DedupMode) (filter_enabled decode_enabled : Bool)
    (unquote : Chars → Chars) (tag : Chars) (st : ParserState) : ParserState :=
  if tag = "a".toList then
    anchorClose mode filter_enabled decode_enabled unquote st
  else if tag = "h3".toList then
    let folder_name := pyStrip st.current_folder
    { st with total_folder_counter := st.total_folder_counter + 1,
              folders := if ¬ folder_name = [] then insert folder_name st.folders
                         else st.folders,
              is_in_h3_tag := false, current_folder := [] }
  else st

/-- Event dispatch of the two-file parser. -/
def parserStep (mode : DedupMode) (filter_enabled decode_enabled : Bool)
    (unquote : Chars → Chars) (st : ParserState) : ParseEvent → ParserState
  | .startTag tag attrs => handle_starttag tag attrs st
  | .text data => handle_data data st
  | .endTag tag => handle_endtag mode filter_enabled decode_enabled unquote tag st

/-- Event dispatch of the multi-file parser. -/
def parserStepMulti (mode : DedupMode) (filter_enabled decode_enabled : Bool)
    (unquote : Chars → Chars) (st : ParserState) : ParseEvent → ParserState
  | .startTag tag attrs => handle_starttag tag attrs st
  | .text data => handle_data data st
  | .endTag tag => handle_endtag_multi mode filter_enabled decode_enabled unquote tag st

/-- Model of `parser.feed(content)` for the two-file parser. -/
def runParser (mode : DedupMode) (filter_enabled decode_enabled : Bool)
    (unquote : Chars → Chars) (events : List ParseEvent) : ParserState :=
  events.foldl (parserStep mode filter_enabled decode_enabled unquote) initState

/-- Model of `parser.feed(content)` for the multi-file parser. -/
def runParserMulti (mode : DedupMode) (filter_enabled decode_enabled : Bool)
    (unquote : Chars → Chars) (events : List ParseEvent) : ParserState :=
  events.foldl (parserStepMulti mode filter_enabled decode_enabled unquote) initState

/-- Model of `total_bookmarks_count = len(all_valid_bookmarks)` in
`parse_bookmarks_file_fast`. -/
def total_bookmarks_count (st : ParserState) : Nat :=
  st.bookmarks.length

/-- Model of `bookmarks_set = set(all_valid_bookmarks)`. -/
def bookmarks_set (st : ParserState) : Finset Bk :=
  st.bookmarks.toFinset

/-! ### Facts about the event handlers -/

theorem handle_starttag_bookmarks (tag : Chars) (attrs : List (Chars × Chars))
    (st : ParserState) : (handle_starttag tag attrs st).bookmarks = st.bookmarks := by
  unfold handle_starttag; split_ifs <;> rfl

theorem handle_data_bookmarks (d : Chars) (st : ParserState) :
    (handle_data d st).bookmarks = st.bookmarks := by
  unfold handle_data; split_ifs <;> rfl

theorem handle_starttag_folders (tag : Chars) (attrs : List (Chars × Chars))
    (st : ParserState) : (handle_starttag tag attrs st).folders = st.folders := by
  unfold handle_starttag; split_ifs <;> rfl

theorem handle_data_folders (d : Chars) (st : ParserState) :
    (handle_data d st).folders = st.folders := by
  unfold handle_data; split_ifs <;> rfl

theorem anchorClose_folders (mode : DedupMode) (fe de : Bool) (uq : Chars → Chars)
    (st : ParserState) : (anchorClose mode fe de uq st).folders = st.folders := by
  cases mode <;>
  · simp only [anchorClose]
    split_ifs <;> rfl

/-- Every bookmark appended by `anchorClose` under `filter_enabled = true`
passes the protocol check. -/
theorem anchorClose_filter_inv (mode : DedupMode) (de : Bool) (uq : Chars → Chars)
    (st : ParserState)
    (hst : ∀ b ∈ st.bookmarks, allowed_protocol (pyLower b.bkUrl) = true) :
    ∀ b ∈ (anchorClose mode true de uq st).bookmarks,
      allowed_protocol (pyLower b.bkUrl) = true := by
  intro b hb
  cases mode <;>
  · simp only [anchorClose, if_true] at hb
    split_ifs at hb <;>
      first
        | exact hst b hb
        | (simp at hb
           rcases hb with hb | hb
           · exact hst b hb
           · subst hb
             simp only [Bk.bkUrl]
             assumption)

theorem handle_endtag_filter_inv (mode : DedupMode) (de : Bool) (uq : Chars → Chars)
    (tag : Chars) (st : ParserState)
    (hst : ∀ b ∈ st.bookmarks, allowed_protocol (pyLower b.bkUrl) = true) :
    ∀ b ∈ (handle_endtag mode true de uq tag st).bookmarks,
      allowed_protocol (pyLower b.bkUrl) = true := by
  unfold handle_endtag
  split_ifs
  · exact anchorClose_filter_inv mode de uq st hst
  · exact hst
  · exact hst

theorem runParser_filter_aux (mode : DedupMode) (de : Bool) (uq : Chars → Chars)
    (events : List ParseEvent) :
    ∀ st : ParserState,
      (∀ b ∈ st.bookmarks, allowed_protocol (pyLower b.bkUrl) = true) →
      ∀ b ∈ (events.foldl (parserStep mode true de uq) st).bookmarks,
        allowed_protocol (pyLower b.bkUrl) = true := by
  induction events with
  | nil => intro st hst; exact hst
  | cons ev evs ih =>
    intro st hst
    rw [List.foldl_cons]
    refine ih _ ?_
    cases ev with
    | startTag tag attrs =>
      intro b hb
      rw [parserStep, handle_starttag_bookmarks] at hb
      exact hst b hb
    | text d =>
      intro b hb
      rw [parserStep, handle_data_bookmarks] at hb
      exact hst b hb
    | endTag tag =>
      exact handle_endtag_filter_inv mode de uq tag st hst

/-- C6: with protocol filtering enabled, every bookmark stored by the parser
passes the case-insensitive `http`/`https`/`ftp` prefix check; a bookmark
whose (decoded) URL fails the check (e.g. a `mailto:` link) is therefore
absent from the stored list, absent from the bookmark key set, and the
reported total (`len(all_valid_bookmarks)`) counts accepted entries only. -/
theorem protocol_filter_excludes (mode : DedupMode) (de : Bool) (uq : Chars → Chars)
    (events : List ParseEvent) (b : Bk)
    (hb : ¬ allowed_protocol (pyLower b.bkUrl) = true) :
    ¬ b ∈ (runParser mode true de uq events).bookmarks ∧
    ¬ b ∈ bookmarks_set (runParser mode true de uq events) ∧
    total_bookmarks_count (runParser mode true de uq events) =
      ((runParser mode true de uq events).bookmarks.filter
        (fun x => allowed_protocol (pyLower x.bkUrl))).length := by
  have hall : ∀ x ∈ (runParser mode true de uq events).bookmarks,
      allowed_protocol (pyLower x.bkUrl) = true :=
    runParser_filter_aux mode de uq events initState (by intro x hx; simp [initState] at hx)
  refine ⟨fun hmem => hb (hall b hmem), ?_, ?_⟩
  · intro hmem
    exact hb (hall b (List.mem_toFinset.mp hmem))
  · rw [total_bookmarks_count, List.filter_eq_self.mpr hall]

/-- Witness for `protocol_filter_excludes`: a `mailto:` link is rejected by
the filter and contributes to neither the list, the set, nor the total. -/
theorem protocol_filter_excludes_witness :
    ¬ Bk.u "mailto:x@y.com".toList ∈ (runParser .url true false (fun s => s)
      [.startTag "a".toList [("href".toList, "mailto:x@y.com".toList)],
       .endTag "a".toList]).bookmarks ∧
    ¬ Bk.u "mailto:x@y.com".toList ∈ bookmarks_set (runParser .url true false (fun s => s)
      [.startTag "a".toList [("href".toList, "mailto:x@y.com".toList)],
       .endTag "a".toList]) ∧
    total_bookmarks_count (runParser .url true false (fun s => s)
      [.startTag "a".toList [("href".toList, "mailto:x@y.com".toList)],
       .endTag "a".toList]) =
      ((runParser .url true false (fun s => s)
        [.startTag "a".toList [("href".toList, "mailto:x@y.com".toList)],
         .endTag "a".toList]).bookmarks.filter
        (fun x => allowed_protocol (pyLower x.bkUrl))).length :=
  protocol_filter_excludes .url false (fun s => s)
    [.startTag "a".toList [("href".toList, "mailto:x@y.com".toList)],
     .endTag "a".toList] (Bk.u "mailto:x@y.com".toList) (by decide)

/-! ### Unclosed anchor at end of input (claim C8) -/

theorem foldl_texts_bookmarks (mode : DedupMode) (fe de : Bool) (uq : Chars → Chars)
    (datas : List ParseEvent) (hd : ∀ d ∈ datas, ∃ s, d = ParseEvent.text s) :
    ∀ st : ParserState,
      (datas.foldl (parserStep mode fe de uq) st).bookmarks = st.bookmarks := by
  induction datas with
  | nil => intro st; rfl
  | cons d ds ih =>
    intro st
    obtain ⟨s, rfl⟩ := hd d (List.mem_cons_self d ds)
    rw [List.foldl_cons,
      ih (fun x hx => hd x (List.mem_cons_of_mem _ hx)) (parserStep mode fe de uq st (.text s))]
    exact handle_data_bookmarks s st

/-- C8 (amended): in the STREAMING parser, an anchor opened and never closed
before end-of-input yields no bookmark entry: for every event stream ending
in `<a ...>` followed only by text (no `</a>` before EOF), the stored
bookmark list equals the one produced without that trailing open anchor —
the partial data is discarded, in both `url` and `url-title` modes and for
all flag settings.  The url-mode regex parser of `compare_bookmarks.py` does
NOT share this property: its href pattern requires no closing `</a>`, so it
extracts the unclosed anchor's URL anyway. -/
theorem unclosed_anchor_no_entry (mode : DedupMode) (fe de : Bool) (uq : Chars → Chars)
    (events : List ParseEvent) (attrs : List (Chars × Chars)) (datas : List ParseEvent)
    (hd : ∀ d ∈ datas, ∃ s, d = ParseEvent.text s) :
    (runParser mode fe de uq
        (events ++ ParseEvent.startTag "a".toList attrs :: datas)).bookmarks =
      (runParser mode fe de uq events).bookmarks := by
  rw [runParser, runParser, List.foldl_append, List.foldl_cons]
  rw [foldl_texts_bookmarks mode fe de uq datas hd]
  exact handle_starttag_bookmarks _ attrs _

/-- Witness for `unclosed_anchor_no_entry` (the spec's Scenario 5): the input
`<a href="http://x.com">Title` followed by EOF yields zero bookmarks. -/
theorem unclosed_anchor_no_entry_witness :
    (runParser .url false false (fun s => s)
      ([] ++ ParseEvent.startTag "a".toList [("href".toList, "http://x.com".toList)] ::
        [ParseEvent.text "Title".toList])).bookmarks = [] :=
  (unclosed_anchor_no_entry .url false false (fun s => s) []
    [("href".toList, "http://x.com".toList)] [ParseEvent.text "Title".toList]
    (fun d hd => ⟨"Title".toList, by simpa using hd⟩)).trans rfl

/-! ### Folder-name sets of the two streaming parsers (claim C9) -/

theorem handle_endtag_multi_folders_inv (mode : DedupMode) (fe de : Bool)
    (uq : Chars → Chars) (tag : Chars) (st : ParserState)
    (hst : ∀ f ∈ st.folders, ¬ f = []) :
    ∀ f ∈ (handle_endtag_multi mode fe de uq tag st).folders, ¬ f = [] := by
  intro f hf
  unfold handle_endtag_multi at hf
  split_ifs at hf with h1 h2
  · rw [anchorClose_folders] at hf
    exact hst f hf
  · simp only at hf
    by_cases hname : pyStrip st.current_folder = []
    · rw [if_neg (by simpa using hname)] at hf
      exact hst f hf
    · rw [if_pos (by simpa using hname)] at hf
      rcases Finset.mem_insert.mp hf with hf | hf
      · rw [hf]; exact hname
      · exact hst f hf
  · exact hst f hf

theorem runParserMulti_folders_aux (mode : DedupMode) (fe de : Bool)
    (uq : Chars → Chars) (events : List ParseEvent) :
    ∀ st : ParserState, (∀ f ∈ st.folders, ¬ f = []) →
      ∀ f ∈ (events.foldl (parserStepMulti mode fe de uq) st).folders, ¬ f = [] := by
  induction events with
  | nil => intro st hst; exact hst
  | cons ev evs ih =>
    intro st hst
    rw [List.foldl_cons]
    refine ih _ ?_
    cases ev with
    | startTag tag attrs =>
      intro f hf
      rw [parserStepMulti, handle_starttag_folders] at hf
      exact hst f hf
    | text d =>
      intro f hf
      rw [parserStepMulti, handle_data_folders] at hf
      exact hst f hf
    | endTag tag =>
      exact handle_endtag_multi_folders_inv mode fe de uq tag st hst

/-- C9: every element of the multi-file streaming parser's folder set is a
non-empty string; an `</h3>` whose accumulated text strips to the empty
string still increments the total folder counter but inserts nothing —
whereas the two-file streaming parser inserts the empty string on the same
input. -/
theorem multi_parser_folders_nonempty :
    (∀ (mode : DedupMode) (fe de : Bool) (uq : Chars → Chars)
       (events : List ParseEvent) (f : Chars),
       f ∈ (runParserMulti mode fe de uq events).folders → ¬ f = []) ∧
    (runParserMulti .url false false (fun s => s)
      [.startTag "h3".toList [], .endTag "h3".toList]).total_folder_counter = 1 ∧
    (runParserMulti .url false false (fun s => s)
      [.startTag "h3".toList [], .endTag "h3".toList]).folders = ∅ ∧
    (runParser .url false false (fun s => s)
      [.startTag "h3".toList [], .endTag "h3".toList]).total_folder_counter = 1 ∧
    (runParser .url false false (fun s => s)
      [.startTag "h3".toList [], .endTag "h3".toList]).folders = {([] : Chars)} := by
  refine ⟨?_, by decide, by decide, by decide, by decide⟩
  intro mode fe de uq events f hf
  exact runParserMulti_folders_aux mode fe de uq events initState
    (by intro x hx; simp [initState] at hx) f hf

/-- Witness for `multi_parser_folders_nonempty`: the folder name `X`
(stripped from `" X "`) recorded by the multi-file parser is non-empty. -/
theorem multi_parser_folders_nonempty_witness :
    ¬ ("X".toList : Chars) = [] :=
  multi_parser_folders_nonempty.1 .url false false (fun s => s)
    [.startTag "h3".toList [], .text " X ".toList, .endTag "h3".toList]
    "X".toList (by decide)

/-! ## The regex-based url-mode extraction (`parse_bookmarks_file` in
`compare_bookmarks.py`, mode `'url'`)

```python
url_pattern = re.compile(r'<a\s+[^>]*href=["\'](.*?)["\']', re.IGNORECASE)
bookmarks = set(url_pattern.findall(content))
```

The pattern is modelled atom by atom as a backtracking matcher in
continuation-passing style with the preference order of the Python engine:
a greedy `*`/`+` tries the longest extension first and backtracks, the lazy
`(.*?)` tries the shortest first, and `findall` scans left to right, resuming
after each non-overlapping match and advancing one character past a failed
position.  `re.IGNORECASE` is modelled by comparing lowercased characters;
without `re.DOTALL`, `.` matches anything but a newline.  Note the pattern
requires no closing `</a>` (unlike the url-title pattern of the same
function, which ends in a literal `</a>`). -/

/-- A case-insensitive literal character (the pattern is IGNORECASE). -/
def litCI {α : Type} (c : Char) (s : Chars) (k : Chars → Option α) : Option α :=
  match s with
  | [] => none
  | d :: ds => if d.toLower = c.toLower then k ds else none

/-- A case-insensitive literal string. -/
def litsCI {α : Type} : Chars → Chars → (Chars → Option α) → Option α
  | [], s, k => k s
  | c :: cs, s, k => litCI c s (fun s1 => litsCI cs s1 k)

/-- A single character of a class, e.g. `["\']`. -/
def oneOf {α : Type} (p : Char → Bool) (s : Chars) (k : Chars → Option α) : Option α :=
  match s with
  | [] => none
  | c :: cs => if p c then k cs else none

/-- Greedy `X*` over a character class: longest continuation first,
backtracking to shorter ones. -/
def greedyStar {α : Type} (p : Char → Bool) (s : Chars) (k : Chars → Option α) : Option α :=
  match s with
  | [] => k []
  | c :: cs =>
    if p c then (greedyStar p cs k).orElse (fun _ => k (c :: cs)) else k (c :: cs)

/-- Lazy `(X*?)` over a character class, capturing the consumed characters:
shortest first. -/
def lazyStarCap {α : Type} (p : Char → Bool) (s acc : Chars)
    (k : Chars → Chars → Option α) : Option α :=
  (k acc.reverse s).orElse (fun _ =>
    match s with
    | [] => none
    | c :: cs => if p c then lazyStarCap p cs (c :: acc) k else none)

/-- The quote class `["\']`. -/
def isQuote (c : Char) : Bool :=
  decide (c = '"') || decide (c = '\'')

/-- One anchored attempt of `<a\s+[^>]*href=["\'](.*?)["\']` at the head of
`s` (atoms in pattern order: `<a`, `\s+` as one `\s` plus a greedy `\s*`,
greedy `[^>]*`, `href=`, a quote, the lazy capture, a quote): on success,
the captured group and the rest of the input after the match. -/
def matchAHrefAt (s : Chars) : Option (Chars × Chars) :=
  litsCI "<a".toList s fun s1 =>
  oneOf Char.isWhitespace s1 fun s2 =>
  greedyStar Char.isWhitespace s2 fun s3 =>
  greedyStar (fun c => !decide (c = '>')) s3 fun s4 =>
  litsCI "href=".toList s4 fun s5 =>
  oneOf isQuote s5 fun s6 =>
  lazyStarCap (fun c => !decide (c = '\n')) s6 [] fun cap s7 =>
  oneOf isQuote s7 fun _s8 =>
  some (cap, _s8)

/-- Model of `url_pattern.findall(content)`: left-to-right non-overlapping
scan.  The fuel only bounds the recursion; `content.length` suffices because
every match consumes at least one character. -/
def findallAHref : Nat → Chars → List Chars
  | 0, _ => []
  | _ + 1, [] => []
  | fuel + 1, c :: cs =>
    match matchAHrefAt (c :: cs) with
    | some (cap, rest) => cap :: findallAHref fuel rest
    | none => findallAHref fuel cs

/-- The url-mode branch of `parse_bookmarks_file` in `compare_bookmarks.py`:
the raw findall results (the script then stores `set(...)` of them). -/
def parse_bookmarks_file_url (content : Chars) : List Chars :=
  findallAHref content.length content

example : parse_bookmarks_file_url "<a href=\"http://x.com\">T</a>".toList =
    ["http://x.com".toList] := by decide
example : parse_bookmarks_file_url "<a class=\"x\" href='u'>ok</a>".toList =
    ["u".toList] := by decide
example : parse_bookmarks_file_url "no anchors here".toList = [] := by decide
example : parse_bookmarks_file_url "<A HREF='a'>x</A><a href='b'>y</a>".toList =
    ["a".toList, "b".toList] := by decide

/-- C8 counterexample: on the spec's Scenario 5 input
`<a href="http://x.com">Title` (no closing `</a>`, immediately followed by
EOF), the url-mode regex parser of `compare_bookmarks.py` emits ONE entry,
`http://x.com` — its pattern requires no `</a>` — so the claim that zero
entries are emitted in both comparison modes is false for that cited
parser. -/
theorem regex_unclosed_anchor_cex :
    parse_bookmarks_file_url "<a href=\"http://x.com\">Title".toList =
      ["http://x.com".toList] ∧
    ¬ parse_bookmarks_file_url "<a href=\"http://x.com\">Title".toList = [] ∧
    (parse_bookmarks_file_url "<a href=\"http://x.com\">Title".toList).toFinset =
      {("http://x.com".toList : Chars)} := by
  refine ⟨by decide, by decide, by decide⟩
